import Mathlib

/-!
Verification of the tide disk-io core specification against the source.

The main subject is the Window-TinyLFU read cache
(`src/wtinylfu/wtinylfu.hpp`) together with the disk_io partial-piece
write pipeline (`include/tide/disk_io.hpp` and the spec, since
`disk_io.cpp` and `frequency_sketch.hpp` are not part of the provided
sources).

The C++ cache computes segment capacities with single-precision float
arithmetic (`0.8f * capacity`, `std::ceil(0.01f * total_capacity)`,
truncating conversions back to `int`).  We embed that arithmetic
exactly: a nonnegative IEEE-754 binary32 value is a rational whose
numerator, after scaling by a power of two, has at most 24 significant
bits; rounding a real product to binary32 is rounding its integer
numerator to 24 significant bits (round to nearest, ties to even).
`roundSig` below performs exactly that integer rounding, and every
float expression of the source is expressed through it:
  0.01f = 10737418 / 2^30   (10737418 = round-to-nearest of 0.01 * 2^30)
  0.8f  = 13421773 / 2^24   (13421773 = round-to-nearest of 0.8  * 2^24)
-/

namespace Tide

/-- Binary length of a natural number, with explicit recursion depth so
that the definition is structural (and hence evaluates inside the
kernel).  `bitLenFuel f n` is the bit length of `n` whenever `n < 2 ^ f`. -/
def bitLenFuel : Nat → Nat → Nat
  | 0, _ => 0
  | f + 1, n => if n = 0 then 0 else bitLenFuel f (n / 2) + 1

/-- Bit length, exact for every `n < 2 ^ 64` — which covers every value
arising from the source's `int`-ranged inputs (products stay below
`2 ^ 31 * 2 ^ 24`). -/
def bitLen (n : Nat) : Nat := bitLenFuel 64 n

/-- Round a natural number to 24 significant bits, round to nearest,
ties to even.  `roundSig n / 2 ^ k` is the binary32 value obtained by
rounding the real `n / 2 ^ k` (for `n / 2 ^ k` within the normal,
non-overflowing range of binary32, which covers every use below). -/
def roundSig (n : Nat) : Nat :=
  if n < 2 ^ 24 then n
  else
    let s := bitLen n - 24
    let q := n / 2 ^ s
    let r := n % 2 ^ s
    if 2 ^ (s - 1) < r ∨ (r = 2 ^ (s - 1) ∧ q % 2 = 1) then (q + 1) * 2 ^ s else q * 2 ^ s

/-- `wtinylfu_cache::get_window_capacity`:
`std::max(1, int(std::ceil(0.01f * total_capacity)))`.
The product `0.01f * S` is the binary32 rounding of `10737418 * S / 2 ^ 30`;
`std::ceil` and the `int` conversion are exact on this range. -/
def get_window_capacity (S : Nat) : Nat :=
  max 1 ((roundSig (10737418 * S) + 2 ^ 30 - 1) / 2 ^ 30)

/-- `slru::slru(int capacity)` delegating constructor, first argument:
`0.8f * capacity` truncated to `int` (truncation toward zero = floor on
nonnegative values). -/
def ctor_safe_capacity (M : Nat) : Nat :=
  roundSig (13421773 * M) / 2 ^ 24

/-- `slru::slru(int capacity)` delegating constructor, second argument:
`capacity - 0.8f * capacity` evaluated in binary32 (the int is converted
to float, `0.8f * capacity` is rounded, the difference is rounded again)
and truncated to `int`. -/
def ctor_probationary_capacity (M : Nat) : Nat :=
  roundSig (M * 2 ^ 24 - roundSig (13421773 * M)) / 2 ^ 24

/-- `slru::set_capacity`: `m_safe.set_capacity(0.8f * n)` — same float
expression as the constructor's first argument. -/
def set_safe_capacity (M : Nat) : Nat :=
  roundSig (13421773 * M) / 2 ^ 24

/-- `slru::set_capacity`: `m_probationary.set_capacity(n - m_safe.capacity())`
— this one is plain `int` arithmetic on the already-truncated safe
capacity. -/
def set_probationary_capacity (M : Nat) : Nat :=
  M - set_safe_capacity M

/-!
## Frequency sketch

Modelled from the spec: `frequency_sketch.hpp` is not among the provided
sources.  Spec 4.A: a 4-bit count-min sketch; width is the capacity
rounded up to the next power of two; `record_access(k)` increments up to
4 counters (saturated at 15) and the global tick, and when the tick
reaches the sampling threshold (= width) every cell is halved and the
tick reset; `get_frequency(k)` is the minimum of the 4 counters;
`change_capacity(n)` rebuilds the table zeroed.  The four hash
functions are "derived by mixing" and otherwise unspecified, so they
are a parameter of the model.
-/

structure Sketch (K : Type) where
  hash : Fin 4 → K → Nat
  width : Nat
  table : List Nat
  num_accesses : Nat

namespace Sketch

variable {K : Type}

def counter_index (s : Sketch K) (i : Fin 4) (k : K) : Nat :=
  s.hash i k % s.width

def bump (t : List Nat) (i : Nat) : List Nat :=
  t.set i (min 15 (t.getD i 0 + 1))

def record_access (s : Sketch K) (k : K) : Sketch K :=
  let t := (List.finRange 4).foldl (fun t i => bump t (s.counter_index i k)) s.table
  let tick := s.num_accesses + 1
  if s.width ≤ tick then
    { s with table := t.map (fun c => c / 2), num_accesses := 0 }
  else
    { s with table := t, num_accesses := tick }

def get_frequency (s : Sketch K) (k : K) : Nat :=
  (List.finRange 4).foldl (fun m i => min m (s.table.getD (s.counter_index i k) 0)) 15

/-- The smallest power of two that is at least `n` (for `n ≥ 1`),
structurally recursive with explicit depth. -/
def pow2GeFuel : Nat → Nat → Nat
  | 0, _ => 1
  | f + 1, n => if n ≤ 1 then 1 else 2 * pow2GeFuel f ((n + 1) / 2)

def pow2Ge (n : Nat) : Nat := pow2GeFuel 64 n

def change_capacity (s : Sketch K) (n : Nat) : Sketch K :=
  let w := pow2Ge n
  { s with width := w, table := List.replicate w 0, num_accesses := 0 }

def init (hash : Fin 4 → K → Nat) (n : Nat) : Sketch K :=
  let w := pow2Ge n
  { hash := hash, width := w, table := List.replicate w 0, num_accesses := 0 }

end Sketch

/-!
## The Window-TinyLFU cache (`src/wtinylfu/wtinylfu.hpp`)

The C++ class keeps three `std::list<page>` segments (the window LRU and
the safe/probationary segments of the main SLRU), each with a soft
capacity, plus `std::map<K, page_position> m_page_map` mapping keys to
list iterators.  Every mutation of the source keeps the page map's key
set identical to the set of keys of the pages on the three lists
(insert/erase/evict update both together; splices keep iterators
valid), so the embedding represents a segment as a Lean list of pages
(most recently used first; the C++ `get_lru_pos` is `getLast?`) and the
page map as the derived key-to-page association over the three lists.

`std::shared_ptr<V> data` is modelled as a plain `V`; a C++ `get` miss
returns `nullptr`, modelled as `none`.

Operations whose C++ counterpart has undefined behaviour — taking
`--end()` of an empty `std::list` in `lru::get_lru_pos`, reached via
`slru::get_victim_pos` on an empty probationary segment — return `none`.
-/

inductive Seg : Type
  | window
  | probationary
  | safe
deriving DecidableEq, Repr

structure Page (K V : Type) where
  key : K
  cache_type : Seg
  data : V
deriving DecidableEq, Repr

structure Cache (K V : Type) where
  filter : Sketch K
  window : List (Page K V)
  safe : List (Page K V)
  prob : List (Page K V)
  window_cap : Nat
  safe_cap : Nat
  prob_cap : Nat

namespace Cache

variable {K V : Type} [DecidableEq K]

/-- `wtinylfu_cache::wtinylfu_cache(int capacity)`. -/
def mk' (hash : Fin 4 → K → Nat) (S : Nat) : Cache K V :=
  let W := get_window_capacity S
  let M := S - W
  { filter := Sketch.init hash S
    window := []
    safe := []
    prob := []
    window_cap := W
    safe_cap := ctor_safe_capacity M
    prob_cap := ctor_probationary_capacity M }

def size (c : Cache K V) : Nat :=
  c.window.length + (c.safe.length + c.prob.length)

def capacity (c : Cache K V) : Nat :=
  c.window_cap + (c.safe_cap + c.prob_cap)

/-- The parenthesised-out key search backing `m_page_map.find`. -/
def findPage (c : Cache K V) (k : K) : Option (Page K V) :=
  (c.window ++ c.safe ++ c.prob).find? (fun p => decide (p.key = k))

/-- `wtinylfu_cache::contains`. -/
def contains (c : Cache K V) (k : K) : Bool :=
  (c.findPage k).isSome

def eraseKey (k : K) (l : List (Page K V)) : List (Page K V) :=
  l.eraseP (fun p => decide (p.key = k))

/-- `lru::handle_hit` (splice the page to the MRU position). -/
def moveKeyToFront (k : K) (l : List (Page K V)) : List (Page K V) :=
  match l.find? (fun p => decide (p.key = k)) with
  | some p => p :: eraseKey k l
  | none => l

end Cache

/-- `slru::get_victim_pos` / `get_victim_key`: the LRU page of the
probationary segment (undefined behaviour, hence `none`, when the
probationary segment is empty). -/
def slru_victim {K V : Type} (prob : List (Page K V)) : Option (Page K V) :=
  prob.getLast?

/-- `slru::handle_hit`.  If the page is probationary it is promoted to
the MRU position of the safe segment, and if the safe segment `is_full`
(size ≥ capacity) afterwards, the safe segment's LRU page is demoted to
the probationary MRU position.  A page in the safe segment is moved to
the safe segment's MRU position.  Returns the new (safe, probationary)
pair. -/
def slru_handle_hit {K V : Type} [DecidableEq K] (scap : Nat)
    (safe prob : List (Page K V)) (p : Page K V) :
    List (Page K V) × List (Page K V) :=
  if p.cache_type = Seg.probationary then
    let promoted : Page K V := { p with cache_type := Seg.safe }
    let safe1 := promoted :: safe
    let prob1 := Cache.eraseKey p.key prob
    if scap ≤ safe1.length then
      let demoted := safe1.getLastD promoted
      (safe1.dropLast, { demoted with cache_type := Seg.probationary } :: prob1)
    else
      (safe1, prob1)
  else
    (Cache.moveKeyToFront p.key safe, prob)

namespace Cache

variable {K V : Type} [DecidableEq K]

/-- `wtinylfu_cache::get`: records the access in the sketch, then on a
hit applies the appropriate segment's hit handler and returns the data;
on a miss returns `nullptr`. -/
def get (c : Cache K V) (k : K) : Option V × Cache K V :=
  let c0 := { c with filter := c.filter.record_access k }
  match c0.findPage k with
  | none => (none, c0)
  | some p =>
    if p.cache_type = Seg.window then
      (some p.data, { c0 with window := moveKeyToFront k c0.window })
    else
      let sp := slru_handle_hit c0.safe_cap c0.safe c0.prob p
      (some p.data, { c0 with safe := sp.1, prob := sp.2 })

/-- `wtinylfu_cache::evict_from_main`: erase the main victim's key from
the page map and evict the probationary LRU page. -/
def evict_from_main (c : Cache K V) : Option (Cache K V) :=
  match slru_victim c.prob with
  | none => none
  | some _ => some { c with prob := c.prob.dropLast }

/-- `wtinylfu_cache::evict_from_window`. -/
def evict_from_window (c : Cache K V) : Option (Cache K V) :=
  match c.window.getLast? with
  | none => none
  | some _ => some { c with window := c.window.dropLast }

/-- `wtinylfu_cache::evict_from_window_or_main`: both victims'
frequencies are estimated; on `window > main` the main victim is
evicted and the window victim transferred to the probationary MRU
position, otherwise (ties included) the window victim is evicted. -/
def evict_from_window_or_main (c : Cache K V) : Option (Cache K V) :=
  match c.window.getLast?, slru_victim c.prob with
  | some wv, some mv =>
    let wf := c.filter.get_frequency wv.key
    let mf := c.filter.get_frequency mv.key
    if mf < wf then
      some { c with
              window := c.window.dropLast
              prob := { wv with cache_type := Seg.probationary } :: c.prob.dropLast }
    else
      some { c with window := c.window.dropLast }
  | _, _ => none

/-- `wtinylfu_cache::evict`. -/
def evict (c : Cache K V) : Option (Cache K V) :=
  if c.capacity ≤ c.size then
    c.evict_from_window_or_main
  else
    match c.window.getLast? with
    | none => none
    | some wv =>
      some { c with
              window := c.window.dropLast
              prob := { wv with cache_type := Seg.probationary } :: c.prob }

/-- Replace the stored data of the page holding `k` (the
`it->second->data = data` branch of `insert`). -/
def updateData (k : K) (v : V) (l : List (Page K V)) : List (Page K V) :=
  l.map (fun p => if p.key = k then { p with data := v } else p)

/-- `wtinylfu_cache::insert`: evict if the window is full, then either
replace the value in place (key present) or place the new entry at the
window MRU position. -/
def insert (c : Cache K V) (k : K) (v : V) : Option (Cache K V) :=
  let step1 : Option (Cache K V) :=
    if c.window_cap ≤ c.window.length then c.evict else some c
  step1.bind fun c1 =>
    if c1.contains k then
      some { c1 with
              window := updateData k v c1.window
              safe := updateData k v c1.safe
              prob := updateData k v c1.prob }
    else
      some { c1 with window := ⟨k, Seg.window, v⟩ :: c1.window }

/-- `wtinylfu_cache::erase`. -/
def erase (c : Cache K V) (k : K) : Cache K V :=
  match c.findPage k with
  | none => c
  | some p =>
    if p.cache_type = Seg.window then
      { c with window := eraseKey k c.window }
    else
      -- slru::erase dispatches on the page's cache type (the source
      -- writes `page.cache_type` on the iterator; the evident intent,
      -- matching every other use, is `page->cache_type`).
      if p.cache_type = Seg.safe then
        { c with safe := eraseKey k c.safe }
      else
        { c with prob := eraseKey k c.prob }

/-- The `while(m_window.is_full()) evict_from_window();` loop of
`change_capacity`, on the reversed window list (LRU page first), so
that evicting the LRU page is structural recursion.  With an empty
window and `is_full()` still true (capacity 0, which
`get_window_capacity` never produces) the C++ loop would evict from an
empty list, modelled as `none`. -/
def windowEvictLoopRev (cap : Nat) : List (Page K V) → Option (List (Page K V))
  | [] => if cap = 0 then none else some []
  | x :: xs =>
    if cap ≤ (x :: xs).length then windowEvictLoopRev cap xs else some (x :: xs)

def windowEvictLoop (cap : Nat) (l : List (Page K V)) : Option (List (Page K V)) :=
  (windowEvictLoopRev cap l.reverse).map List.reverse

/-- The `while(m_main.is_full()) evict_from_main();` loop of
`change_capacity`, on the reversed probationary list (LRU page first).
Each iteration evicts the probationary LRU page; when `is_full()`
holds with an empty probationary segment, the C++ code dereferences
`--end()` of an empty `std::list` (undefined behaviour), modelled as
`none`. -/
def mainEvictLoopRev (scap pcap safeLen : Nat) :
    List (Page K V) → Option (List (Page K V))
  | [] => if scap + pcap ≤ safeLen then none else some []
  | x :: xs =>
    if scap + pcap ≤ safeLen + (x :: xs).length then mainEvictLoopRev scap pcap safeLen xs
    else some (x :: xs)

def mainEvictLoop (scap pcap : Nat) (safe prob : List (Page K V)) :
    Option (List (Page K V) × List (Page K V)) :=
  (mainEvictLoopRev scap pcap safe.length prob.reverse).map (fun pr => (safe, pr.reverse))

/-- `wtinylfu_cache::change_capacity`.  `n <= 0` throws
`std::invalid_argument` (modelled as `none`); otherwise the sketch is
rebuilt, the new segment capacities are installed and the window and
main segments are shrunk by eviction until no longer full. -/
def change_capacity (c : Cache K V) (n : Nat) : Option (Cache K V) :=
  if n = 0 then none
  else
    let W := get_window_capacity n
    let M := n - W
    let scap := set_safe_capacity M
    let pcap := set_probationary_capacity M
    (windowEvictLoop W c.window).bind fun w =>
      (mainEvictLoop scap pcap c.safe c.prob).bind fun sp =>
        some { filter := c.filter.change_capacity n
               window := w
               safe := sp.1
               prob := sp.2
               window_cap := W
               safe_cap := scap
               prob_cap := pcap }

/-- Return the value stored for a key, if any. -/
def lookup (c : Cache K V) (k : K) : Option V :=
  (c.findPage k).map Page.data

/-- All keys on the three segments, window first. -/
def keysOf (c : Cache K V) : List K :=
  (c.window ++ c.safe ++ c.prob).map Page.key

end Cache

/-!
## The partial-piece write pipeline

Modelled from the spec: the bodies of `disk_io::save_block`,
`dispatch_write`, `hash_and_save_blocks`, `flush_buffer` and
`handle_complete_piece` live in `disk_io.cpp`, which is not among the
provided sources; only their declarations and the `partial_piece` data
model (`include/tide/disk_io.hpp`) are.  The model follows spec 4.F:

* `save_block` validates the block (in range, 16 KiB aligned, at most
  16 KiB), reports `duplicate_block` when the block's `save_progress`
  bit is already set, and otherwise inserts the block into `buffer` at
  the position preserving offset order;
* `dispatch_write` (modelled as the `start_*` events, which only fire
  while the piece is not busy) either moves the hashable range of at
  least `write_cache_line_size` blocks to `work_buffer` for
  `hash_and_save_blocks`, or moves the whole buffer for `flush_buffer`
  (buffer-capacity or timer triggered), or moves the whole buffer for
  `handle_complete_piece` when the piece is complete;
* the worker (`finish_*` events) feeds blocks to the `sha1_hasher`
  strictly by ascending offset: `hash_and_save_blocks` feeds the whole
  (contiguous, starting at `unhashed_offset`) work buffer,
  `flush_buffer` feeds the contiguous prefix starting at
  `unhashed_offset`, and `handle_complete_piece` feeds every remaining
  byte in piece order, reading saved-but-unhashed blocks back from
  storage.  `handle_complete_piece` is only dispatched for complete
  pieces, whose remaining blocks necessarily form one contiguous run
  from `unhashed_offset`; the model states that precondition as an
  explicit guard.

The SHA-1 context (`sha1_hasher`, OpenSSL-backed) is modelled by its
input: `fed` is the list of blocks fed to `hasher.update`, in feed
order.  `received` records every block accepted by `save_block`, and
`disk` the blocks written to storage (available for read-back).
-/

structure PBlock where
  offset : Nat
  data : List Nat
deriving DecidableEq, Repr

inductive Job : Type
  | hash
  | flush
  | complete
deriving DecidableEq, Repr

structure Piece where
  length : Nat
  buffer : List PBlock
  work_buffer : List PBlock
  save_progress : List Bool
  unhashed_offset : Nat
  job : Option Job
  disk : List PBlock
  fed : List PBlock
  received : List PBlock
deriving DecidableEq, Repr

namespace Piece

def totalLen (l : List PBlock) : Nat :=
  (l.map (fun b => b.data.length)).sum

/-- `blocks in buffer are contiguous starting at offset o`. -/
def chainFromB : Nat → List PBlock → Bool
  | _, [] => true
  | o, b :: bs => decide (b.offset = o) && chainFromB (o + b.data.length) bs

/-- Insert a block at the position preserving offset order
(`save_block` step 4). -/
def insertOrdered (b : PBlock) : List PBlock → List PBlock
  | [] => [b]
  | x :: xs => if b.offset < x.offset then b :: x :: xs else x :: insertOrdered b xs

/-- `partial_piece::hashable_range`: the maximal prefix of the
offset-ordered buffer that starts at `o` and is strictly contiguous. -/
def hashablePart : Nat → List PBlock → List PBlock
  | _, [] => []
  | o, b :: bs => if b.offset = o then b :: hashablePart (o + b.data.length) bs else []

def markSaved (sp : List Bool) (blocks : List PBlock) : List Bool :=
  blocks.foldl (fun t b => t.set (b.offset / 16384) true) sp

def sortByOffset (l : List PBlock) : List PBlock :=
  l.foldl (fun acc b => insertOrdered b acc) []

inductive SaveRes : Type
  | invalid_block
  | duplicate_block
  | accepted
deriving DecidableEq, Repr

/-- `save_block` validation: in range, 16 KiB aligned, at most 16 KiB
(`torrent_entry::is_block_valid`). -/
def validBlock (p : Piece) (b : PBlock) : Bool :=
  decide (b.offset % 16384 = 0) && decide (0 < b.data.length) &&
    decide (b.data.length ≤ 16384) && decide (b.offset + b.data.length ≤ p.length)

/-- `disk_io::save_block`, network-thread part, up to and including the
buffer insertion.  The returned `SaveRes` is the synchronous outcome:
`invalid_block` and `duplicate_block` invoke the save handler on the
calling thread and leave the piece untouched. -/
def save_block (p : Piece) (b : PBlock) : SaveRes × Piece :=
  if validBlock p b then
    if p.save_progress.getD (b.offset / 16384) false then
      (SaveRes.duplicate_block, p)
    else
      (SaveRes.accepted,
        { p with buffer := insertOrdered b p.buffer, received := p.received ++ [b] })
  else
    (SaveRes.invalid_block, p)

inductive Ev : Type
  | recv (b : PBlock)
  | start_hash
  | finish_hash
  | start_flush
  | finish_flush
  | start_complete
  | finish_complete
deriving DecidableEq, Repr

/-- The blocks still to hash when a complete piece is processed: the
work buffer together with the saved-but-unhashed blocks read back from
storage, in ascending offset order. -/
def remaining (p : Piece) : List PBlock :=
  sortByOffset (p.work_buffer ++ p.disk.filter (fun b => p.unhashed_offset ≤ b.offset))

/-- One event of a piece's lifetime.  `L` is
`disk_io_settings::write_cache_line_size` in blocks. -/
def step (L : Nat) (p : Piece) : Ev → Option Piece
  | Ev.recv b => some (save_block p b).2
  | Ev.start_hash =>
    if p.job = none then
      let h := hashablePart p.unhashed_offset p.buffer
      if L ≤ h.length then
        some { p with buffer := p.buffer.drop h.length, work_buffer := h, job := some Job.hash }
      else none
    else none
  | Ev.finish_hash =>
    match p.job with
    | some Job.hash =>
      some { p with
              fed := p.fed ++ p.work_buffer
              unhashed_offset := p.unhashed_offset + totalLen p.work_buffer
              disk := p.disk ++ p.work_buffer
              save_progress := markSaved p.save_progress p.work_buffer
              work_buffer := []
              job := none }
    | _ => none
  | Ev.start_flush =>
    if p.job = none then
      some { p with buffer := [], work_buffer := p.work_buffer ++ p.buffer, job := some Job.flush }
    else none
  | Ev.finish_flush =>
    match p.job with
    | some Job.flush =>
      let h := hashablePart p.unhashed_offset p.work_buffer
      some { p with
              fed := p.fed ++ h
              unhashed_offset := p.unhashed_offset + totalLen h
              disk := p.disk ++ p.work_buffer
              save_progress := markSaved p.save_progress p.work_buffer
              work_buffer := []
              job := none }
    | _ => none
  | Ev.start_complete =>
    if p.job = none then
      some { p with buffer := [], work_buffer := p.work_buffer ++ p.buffer, job := some Job.complete }
    else none
  | Ev.finish_complete =>
    match p.job with
    | some Job.complete =>
      let rem := remaining p
      if chainFromB p.unhashed_offset rem then
        some { p with
                fed := p.fed ++ rem
                unhashed_offset := p.unhashed_offset + totalLen rem
                disk := p.disk ++ p.work_buffer
                save_progress := markSaved p.save_progress p.work_buffer
                work_buffer := []
                job := none }
      else none
    | _ => none

def run (L : Nat) (p : Piece) : List Ev → Option Piece
  | [] => some p
  | e :: es => (step L p e).bind (fun q => run L q es)

/-- A freshly created `partial_piece`: empty buffers, `save_progress`
preallocated to the number of blocks, `unhashed_offset = 0`. -/
def init (len : Nat) : Piece :=
  { length := len
    buffer := []
    work_buffer := []
    save_progress := List.replicate ((len + 16384 - 1) / 16384) false
    unhashed_offset := 0
    job := none
    disk := []
    fed := []
    received := [] }

/-- The hashing invariant of a partial piece: the blocks fed to the
SHA-1 context are contiguous in ascending offset order starting at
offset 0, `unhashed_offset` equals the total number of bytes fed, a
pending hash job's work buffer continues contiguously at
`unhashed_offset`, and every block in any buffer was received through
`save_block`. -/
def Inv (p : Piece) : Prop :=
  chainFromB 0 p.fed = true ∧
  p.unhashed_offset = totalLen p.fed ∧
  (p.job = some Job.hash → chainFromB p.unhashed_offset p.work_buffer = true) ∧
  (∀ b ∈ p.buffer, b ∈ p.received) ∧
  (∀ b ∈ p.work_buffer, b ∈ p.received) ∧
  (∀ b ∈ p.disk, b ∈ p.received) ∧
  (∀ b ∈ p.fed, b ∈ p.received)

end Piece

/-- Four fixed hash functions used to instantiate the sketch in
concrete evaluations. -/
def natHash : Fin 4 → Nat → Nat := fun _ k => k

/-- A concrete piece with the second block already saved. -/
def dupPiece : Piece :=
  { length := 20000
    buffer := []
    work_buffer := []
    save_progress := [false, true]
    unhashed_offset := 0
    job := none
    disk := [⟨16384, [7]⟩]
    fed := []
    received := [⟨16384, [7]⟩] }

/-- A concrete cache whose window (capacity 2) is not full and holds
key 0. -/
def wit7 : Cache Nat Nat :=
  { filter := Sketch.init natHash 200
    window := [⟨0, Seg.window, 10⟩]
    safe := []
    prob := []
    window_cap := 2
    safe_cap := 158
    prob_cap := 40 }

/-- A concrete full cache for the C1 witness: key 0 at the window LRU
with sketch frequency 3, key 1 at the probationary LRU with sketch
frequency 1, total size 2 at capacity 2. -/
def wit1 : Cache Nat Nat :=
  { filter := { hash := natHash, width := 4, table := [3, 1, 0, 0], num_accesses := 0 }
    window := [⟨0, Seg.window, 10⟩]
    safe := []
    prob := [⟨1, Seg.probationary, 11⟩]
    window_cap := 1
    safe_cap := 1
    prob_cap := 0 }

/-- The final state of the concrete C3 witness trace: one 2-byte block
at offset 0, hashed and saved. -/
def witPiece : Piece :=
  { length := 2
    buffer := []
    work_buffer := []
    save_progress := [true]
    unhashed_offset := 2
    job := none
    disk := [⟨0, [7, 8]⟩]
    fed := [⟨0, [7, 8]⟩]
    received := [⟨0, [7, 8]⟩] }

/-!
## Helper lemmas
-/

namespace Cache

variable {K V : Type} [DecidableEq K]

theorem findPage_set_filter (c : Cache K V) (f : Sketch K) (k : K) :
    ({ c with filter := f } : Cache K V).findPage k = c.findPage k := rfl

theorem contains_iff_mem_keysOf (c : Cache K V) (k : K) :
    c.contains k = true ↔ k ∈ c.keysOf := by
  unfold Cache.contains Cache.findPage Cache.keysOf
  constructor
  · intro h
    obtain ⟨p, hp⟩ := Option.isSome_iff_exists.mp h
    exact List.mem_map.mpr
      ⟨p, List.mem_of_find?_eq_some hp, by simpa using List.find?_some hp⟩
  · intro h
    obtain ⟨p, hpm, hpk⟩ := List.mem_map.mp h
    have hne : (c.window ++ c.safe ++ c.prob).find? (fun p => decide (p.key = k)) ≠ none := by
      intro hn
      have := List.find?_eq_none.mp hn p hpm
      simp [hpk] at this
    exact Option.isSome_iff_ne_none.mpr hne

theorem contains_false_iff (c : Cache K V) (k : K) :
    c.contains k = false ↔ k ∉ c.keysOf := by
  rw [← contains_iff_mem_keysOf]
  constructor
  · intro h hk
    rw [h] at hk
    exact Bool.false_ne_true hk
  · intro h
    cases hb : c.contains k with
    | false => rfl
    | true => exact absurd hb h

omit [DecidableEq K] in
theorem mem_keysOf_iff (c : Cache K V) (k : K) :
    k ∈ c.keysOf ↔
      k ∈ c.window.map Page.key ∨ k ∈ c.safe.map Page.key ∨ k ∈ c.prob.map Page.key := by
  simp [Cache.keysOf, List.map_append, List.mem_append, or_assoc]

end Cache

/-!
## Arithmetic of the binary32 embedding
-/

theorem bitLenFuel_zero (f : Nat) : bitLenFuel f 0 = 0 := by
  cases f <;> rfl

theorem bitLenFuel_bounds :
    ∀ f n : Nat, 0 < n → n < 2 ^ f →
      2 ^ (bitLenFuel f n - 1) ≤ n ∧ n < 2 ^ bitLenFuel f n := by
  intro f
  induction f with
  | zero =>
    intro n h0 h1
    norm_num at h1
    omega
  | succ f ih =>
    intro n h0 hf
    have hne : n ≠ 0 := Nat.pos_iff_ne_zero.mp h0
    rw [show bitLenFuel (f + 1) n = if n = 0 then 0 else bitLenFuel f (n / 2) + 1 from rfl,
      if_neg hne]
    by_cases h1 : n = 1
    · subst h1
      norm_num [bitLenFuel_zero]
    · have h2 : 2 ≤ n := by omega
      have hd0 : 0 < n / 2 := Nat.div_pos h2 (by norm_num)
      have hdf : n / 2 < 2 ^ f := by
        rw [Nat.div_lt_iff_lt_mul (by norm_num : (0 : Nat) < 2)]
        calc n < 2 ^ (f + 1) := hf
          _ = 2 ^ f * 2 := by ring
      obtain ⟨ihl, ihr⟩ := ih (n / 2) hd0 hdf
      have hs1 : 1 ≤ bitLenFuel f (n / 2) := by
        by_contra hcon
        have hz : bitLenFuel f (n / 2) = 0 := by omega
        rw [hz, pow_zero] at ihr
        omega
      set t := bitLenFuel f (n / 2) with ht
      have hts : t - 1 + 1 = t := by omega
      have hpow : 2 ^ (t - 1) * 2 = 2 ^ t := by
        rw [← pow_succ, hts]
      constructor
      · have h3 : 2 ^ (t - 1) * 2 ≤ n / 2 * 2 := Nat.mul_le_mul_right _ ihl
        have h4 : n / 2 * 2 ≤ n := Nat.div_mul_le_self n 2
        calc 2 ^ (t + 1 - 1) = 2 ^ t := by rw [Nat.add_sub_cancel]
          _ = 2 ^ (t - 1) * 2 := hpow.symm
          _ ≤ n / 2 * 2 := h3
          _ ≤ n := h4
      · have h5 : n / 2 + 1 ≤ 2 ^ t := ihr
        have hdm := Nat.div_add_mod n 2
        have hmod : n % 2 < 2 := Nat.mod_lt _ (by norm_num)
        have h6 : n < n / 2 * 2 + 2 := by omega
        calc n < n / 2 * 2 + 2 := h6
          _ = (n / 2 + 1) * 2 := by ring
          _ ≤ 2 ^ t * 2 := Nat.mul_le_mul_right _ h5
          _ = 2 ^ (t + 1) := (pow_succ 2 t).symm

theorem bitLen_bounds {n : Nat} (h0 : 0 < n) (h64 : n < 2 ^ 64) :
    2 ^ (bitLen n - 1) ≤ n ∧ n < 2 ^ bitLen n :=
  bitLenFuel_bounds 64 n h0 h64

/-- For `2^24 ≤ n < 2^64` and `s := bitLen n - 24`: the rounding step
of `roundSig` keeps a multiple of `2^s`, moves the value by at most
`2^(s-1)` in either direction, and `2^(23+s) ≤ n < 2^(24+s)`. -/
theorem roundSig_spec (n : Nat) (hn24 : 2 ^ 24 ≤ n) (hn64 : n < 2 ^ 64) :
    2 ^ (bitLen n - 24) ∣ roundSig n ∧
      roundSig n ≤ n + 2 ^ (bitLen n - 24 - 1) ∧
      n ≤ roundSig n + 2 ^ (bitLen n - 24 - 1) ∧
      1 ≤ bitLen n - 24 ∧
      2 ^ (23 + (bitLen n - 24)) ≤ n ∧ n < 2 ^ (24 + (bitLen n - 24)) := by
  have h0 : 0 < n := lt_of_lt_of_le (by norm_num) hn24
  obtain ⟨hl, hr⟩ := bitLen_bounds h0 hn64
  have hbl : 25 ≤ bitLen n := by
    by_contra hcon
    have hble : bitLen n ≤ 24 := by omega
    have : (2 : Nat) ^ bitLen n ≤ 2 ^ 24 := Nat.pow_le_pow_right (by norm_num) hble
    omega
  have hs1 : 1 ≤ bitLen n - 24 := by omega
  have h23 : 23 + (bitLen n - 24) = bitLen n - 1 := by omega
  have h24 : 24 + (bitLen n - 24) = bitLen n := by omega
  have hlow : 2 ^ (23 + (bitLen n - 24)) ≤ n := by rw [h23]; exact hl
  have hhigh : n < 2 ^ (24 + (bitLen n - 24)) := by rw [h24]; exact hr
  have hnot : ¬ n < 2 ^ 24 := not_lt.mpr hn24
  rw [roundSig, if_neg hnot]
  simp only []
  set s := bitLen n - 24 with hs
  set q := n / 2 ^ s with hqdef
  set r := n % 2 ^ s with hrdef
  have hq : 2 ^ s * q + r = n := Nat.div_add_mod n (2 ^ s)
  have hrlt : r < 2 ^ s := Nat.mod_lt _ (Nat.pos_pow_of_pos _ (by norm_num))
  have hsplit : 2 ^ s = 2 ^ (s - 1) * 2 := by
    rw [← pow_succ]
    congr 1
    omega
  have hmul1 : (q + 1) * 2 ^ s = 2 ^ s * q + 2 ^ s := by ring
  have hmul2 : q * 2 ^ s = 2 ^ s * q := by ring
  refine ⟨?_, ?_, ?_, hs1, hlow, hhigh⟩
  · split
    · exact dvd_mul_left _ _
    · exact dvd_mul_left _ _
  · split
    · next hcond =>
      have hge : 2 ^ (s - 1) ≤ r := by
        rcases hcond with h | ⟨h, _⟩ <;> omega
      omega
    · omega
  · split
    · omega
    · next hcond =>
      push_neg at hcond
      have hle : r ≤ 2 ^ (s - 1) := hcond.1
      omega

theorem roundSig_small {n : Nat} (h : n < 2 ^ 24) : roundSig n = n := by
  rw [roundSig, if_pos h]

theorem roundSig_exact {n k : Nat} (hd : 2 ^ k ∣ n) (hlt : n < 2 ^ (24 + k))
    (hn64 : n < 2 ^ 64) : roundSig n = n := by
  by_cases h24 : n < 2 ^ 24
  · exact roundSig_small h24
  · have hn24 : 2 ^ 24 ≤ n := not_lt.mp h24
    obtain ⟨_, _, _, hs1, hlow, _⟩ := roundSig_spec n hn24 hn64
    have hsk : bitLen n - 24 ≤ k := by
      by_contra hcon
      push_neg at hcon
      have hexp : 24 + k ≤ 23 + (bitLen n - 24) := by omega
      have h1 : (2 : Nat) ^ (24 + k) ≤ 2 ^ (23 + (bitLen n - 24)) :=
        Nat.pow_le_pow_right (by norm_num) hexp
      omega
    have hdvs : 2 ^ (bitLen n - 24) ∣ n := dvd_trans (pow_dvd_pow 2 hsk) hd
    obtain ⟨c, hc⟩ := hdvs
    have hmod : n % 2 ^ (bitLen n - 24) = 0 := Nat.mod_eq_zero_of_dvd ⟨c, hc⟩
    have hpos : 0 < 2 ^ (bitLen n - 24 - 1) := Nat.pos_pow_of_pos _ (by norm_num)
    rw [roundSig, if_neg h24]
    simp only []
    rw [hmod]
    rw [if_neg (by
      rintro (hcon | ⟨hcon, _⟩)
      · exact Nat.not_lt_zero _ hcon
      · omega)]
    rw [Nat.div_mul_cancel ⟨c, hc⟩]


/-- Claim C5 counterexample: `capacity()` does not equal the requested
total capacity.  At S = 4 the window capacity is 1 and the main cache
receives 3, but the truncating single-precision split gives the safe
segment `int(0.8f*3) = 2` and the probationary segment
`int(3 - 0.8f*3) = int(0.59999990...) = 0`, so `capacity() = 3 ≠ 4`. -/
theorem wtinylfu_capacity_counterexample :
    (Cache.mk' (V := Nat) natHash 4).capacity = 3 ∧
      (Cache.mk' (V := Nat) natHash 4).capacity ≠ 4 :=
  ⟨rfl, by decide⟩

/-- The window never takes more than the whole cache: `max(1,
ceil(0.01f * S)) ≤ S` for `1 ≤ S ≤ 2^24`. -/
theorem get_window_capacity_le (S : Nat) (h1 : 1 ≤ S) (h2 : S ≤ 2 ^ 24) :
    get_window_capacity S ≤ S := by
  unfold get_window_capacity
  refine max_le h1 ?_
  have hr1 : roundSig (10737418 * S) ≤ 2 ^ 30 * S := by
    by_cases hsm : 10737418 * S < 2 ^ 24
    · rw [roundSig_small hsm]
      exact Nat.mul_le_mul_right S (by norm_num)
    · have hn24 : 2 ^ 24 ≤ 10737418 * S := not_lt.mp hsm
      have hn64 : 10737418 * S < 2 ^ 64 := by
        have hb : 10737418 * S ≤ 10737418 * 2 ^ 24 := Nat.mul_le_mul_left _ h2
        omega
      obtain ⟨_, hup, _, hs1, hlow, _⟩ := roundSig_spec _ hn24 hn64
      have he1 : 2 ^ (bitLen (10737418 * S) - 24 - 1) * 2 ^ 24 ≤ 10737418 * S := by
        calc 2 ^ (bitLen (10737418 * S) - 24 - 1) * 2 ^ 24
            = 2 ^ (bitLen (10737418 * S) - 24 - 1 + 24) := (pow_add 2 _ _).symm
          _ ≤ 2 ^ (23 + (bitLen (10737418 * S) - 24)) :=
              Nat.pow_le_pow_right (by norm_num) (by omega)
          _ ≤ 10737418 * S := hlow
      omega
  omega

/-- The truncating single-precision 80/20 split of the main capacity
loses at most one slot: `int(0.8f*M) + int(float(M) - 0.8f*M)` is `M`
or `M - 1` for `M < 2^24`. -/
theorem ctor_split_bounds (M : Nat) (hM24 : M < 2 ^ 24) :
    ctor_safe_capacity M + ctor_probationary_capacity M ≤ M ∧
      M - 1 ≤ ctor_safe_capacity M + ctor_probationary_capacity M := by
  have hn64 : 13421773 * M < 2 ^ 64 := by
    have hb : 13421773 * M ≤ 13421773 * 2 ^ 24 := Nat.mul_le_mul_left _ (le_of_lt hM24)
    omega
  have hr2le : roundSig (13421773 * M) ≤ 2 ^ 24 * M := by
    by_cases hsm : 13421773 * M < 2 ^ 24
    · rw [roundSig_small hsm]
      exact Nat.mul_le_mul_right M (by norm_num)
    · have hn24 : 2 ^ 24 ≤ 13421773 * M := not_lt.mp hsm
      obtain ⟨_, hup, _, hs1, hlow, _⟩ := roundSig_spec _ hn24 hn64
      have he1 : 2 ^ (bitLen (13421773 * M) - 24 - 1) * 2 ^ 24 ≤ 13421773 * M := by
        calc 2 ^ (bitLen (13421773 * M) - 24 - 1) * 2 ^ 24
            = 2 ^ (bitLen (13421773 * M) - 24 - 1 + 24) := (pow_add 2 _ _).symm
          _ ≤ 2 ^ (23 + (bitLen (13421773 * M) - 24)) :=
              Nat.pow_le_pow_right (by norm_num) (by omega)
          _ ≤ 13421773 * M := hlow
      omega
  have hdex : roundSig (M * 2 ^ 24 - roundSig (13421773 * M)) =
      M * 2 ^ 24 - roundSig (13421773 * M) := by
    by_cases hd24 : M * 2 ^ 24 - roundSig (13421773 * M) < 2 ^ 24
    · exact roundSig_small hd24
    · have hn24 : 2 ^ 24 ≤ 13421773 * M := by
        by_contra hns
        push_neg at hns
        rw [roundSig_small hns] at hd24
        omega
      obtain ⟨hdvd, hup, hlo, hs1, hlow, hhigh⟩ := roundSig_spec _ hn24 hn64
      have hsle : bitLen (13421773 * M) - 24 ≤ 24 := by
        have h48 : 13421773 * M < 2 ^ 48 := by
          have hb : 13421773 * M ≤ 13421773 * 2 ^ 24 :=
            Nat.mul_le_mul_left _ (le_of_lt hM24)
          omega
        by_contra hcon
        push_neg at hcon
        have hcp : (2 : Nat) ^ 48 ≤ 2 ^ (23 + (bitLen (13421773 * M) - 24)) :=
          Nat.pow_le_pow_right (by norm_num) (by omega)
        omega
      have hdvd24 : 2 ^ (bitLen (13421773 * M) - 24) ∣ M * 2 ^ 24 :=
        dvd_mul_of_dvd_right (pow_dvd_pow 2 hsle) M
      have hdvdd : 2 ^ (bitLen (13421773 * M) - 24) ∣
          M * 2 ^ 24 - roundSig (13421773 * M) := Nat.dvd_sub' hdvd24 hdvd
      have hq4 : 13421772 * M < 2 ^ (24 + (bitLen (13421773 * M) - 24)) := by omega
      have hpow4 : 2 ^ (24 + (bitLen (13421773 * M) - 24)) =
          4 * 2 ^ (22 + (bitLen (13421773 * M) - 24)) := by
        rw [show 24 + (bitLen (13421773 * M) - 24) =
          2 + (22 + (bitLen (13421773 * M) - 24)) by omega, pow_add]
        norm_num
      have helt : 2 ^ (bitLen (13421773 * M) - 24 - 1) ≤
          2 ^ (22 + (bitLen (13421773 * M) - 24)) :=
        Nat.pow_le_pow_right (by norm_num) (by omega)
      have hdlt : M * 2 ^ 24 - roundSig (13421773 * M) <
          2 ^ (24 + (bitLen (13421773 * M) - 24)) := by omega
      have hd64 : M * 2 ^ 24 - roundSig (13421773 * M) < 2 ^ 64 := by omega
      exact roundSig_exact hdvdd hdlt hd64
  have hsafe : ctor_safe_capacity M = roundSig (13421773 * M) / 2 ^ 24 := rfl
  have hprob : ctor_probationary_capacity M =
      (M * 2 ^ 24 - roundSig (13421773 * M)) / 2 ^ 24 := by
    unfold ctor_probationary_capacity
    rw [hdex]
  rw [hsafe, hprob]
  omega

/-- Claim C5 amended: for a total capacity `1 ≤ S ≤ 2^24`, the window
capacity is `max(1, ceil(0.01f·S))` (the source's single-precision
expression, embedded by `get_window_capacity`), the main cache receives
the remaining `S - W` split by the truncating single-precision
expressions `int(0.8f·M)` (safe) and `int(float(M) - 0.8f·M)`
(probationary); consequently `capacity()` is `S` or `S - 1` — equality
with `S` can fail (e.g. S = 4 yields 3). -/
theorem wtinylfu_capacity_bounds {K V : Type} [DecidableEq K] (hash : Fin 4 → K → Nat)
    (S : Nat) (h1 : 1 ≤ S) (h2 : S ≤ 2 ^ 24) :
    (Cache.mk' (V := V) hash S).window_cap = get_window_capacity S ∧
      S - 1 ≤ (Cache.mk' (V := V) hash S).capacity ∧
      (Cache.mk' (V := V) hash S).capacity ≤ S := by
  have hW1 : 1 ≤ get_window_capacity S := le_max_left 1 _
  have hWS : get_window_capacity S ≤ S := get_window_capacity_le S h1 h2
  have hsplit := ctor_split_bounds (S - get_window_capacity S) (by omega)
  have hcapacity : (Cache.mk' (V := V) hash S).capacity =
      get_window_capacity S +
        (ctor_safe_capacity (S - get_window_capacity S) +
          ctor_probationary_capacity (S - get_window_capacity S)) := rfl
  rw [hcapacity]
  exact ⟨rfl, by omega, by omega⟩

/-- Witness for the amended C5 at a concrete input (S = 100: the
capacity comes out as 99). -/
theorem wtinylfu_capacity_bounds_witness :
    (1 ≤ 100 ∧ (100 : Nat) ≤ 2 ^ 24) ∧
      (Cache.mk' (V := Nat) natHash 100).window_cap = get_window_capacity 100 ∧
      100 - 1 ≤ (Cache.mk' (V := Nat) natHash 100).capacity ∧
      (Cache.mk' (V := Nat) natHash 100).capacity ≤ 100 :=
  ⟨⟨by norm_num, by norm_num⟩,
    wtinylfu_capacity_bounds natHash 100 (by norm_num) (by norm_num)⟩

/-- Claim C2 (code_bug evidence).  The spec demands `size() ≤
capacity()` after every public operation for every cache of capacity at
least 1.  The code cannot maintain it: for a cache constructed with
capacity 1, the window capacity is 1 and the main SLRU receives
capacity 0 in both segments, so `change_capacity(1)` enters
`while(m_main.is_full())` (0 ≥ 0) with an empty main cache and
`evict_from_main` dereferences `--end()` of the empty probationary
`std::list` — undefined behaviour, modelled as `none`: the operation
has no defined post-state at all. -/
theorem wtinylfu_change_capacity_capacity_one_crash :
    (Cache.mk' (V := Nat) natHash 1).change_capacity 1 = none := rfl

/-- Claim C9 (code_bug evidence).  Eviction consults the main cache's
victim with an empty probationary segment: on a capacity-1 cache the
second distinct `insert` finds the window full and `size() ≥
capacity()`, so `evict_from_window_or_main` calls
`m_main.get_victim_key()`, which takes `--end()` of the empty
probationary `std::list` — undefined behaviour, modelled as `none`.
The first insert by itself succeeds. -/
theorem wtinylfu_insert_empty_main_crash :
    ((Cache.mk' (V := Nat) natHash 1).insert 0 0).isSome = true ∧
      (((Cache.mk' (V := Nat) natHash 1).insert 0 0).bind fun c => c.insert 1 0) = none :=
  ⟨rfl, rfl⟩

/-- Claim C10: for every key `k` not in the cache, `get(k)` returns
`nullptr` and leaves the page map (represented by the key-to-page
association of the three segment lists), the window segment and both
main segments unchanged; its only effect is to record exactly one
access for `k` in the frequency sketch. -/
theorem wtinylfu_get_miss_frame {K V : Type} [DecidableEq K] (c : Cache K V) (k : K)
    (h : c.contains k = false) :
    c.get k = (none, { c with filter := c.filter.record_access k }) := by
  have h0 : c.findPage k = none := by
    unfold Cache.contains at h
    exact Option.not_isSome_iff_eq_none.mp (by simp [h])
  simp only [Cache.get]
  rw [Cache.findPage_set_filter, h0]

/-- Witness for C10 at a concrete input. -/
theorem wtinylfu_get_miss_frame_witness :
    (Cache.mk' (V := Nat) natHash 4).contains 7 = false ∧
      (Cache.mk' (V := Nat) natHash 4).get 7 =
        (none,
          { Cache.mk' (V := Nat) natHash 4 with
              filter := (Cache.mk' (V := Nat) natHash 4).filter.record_access 7 }) :=
  ⟨rfl, wtinylfu_get_miss_frame _ _ rfl⟩

/-- Claim C8: a `save_block` call naming a block whose `save_progress`
bit is already set reports `duplicate_block` synchronously (the outcome
of the call itself, before any job is posted) and leaves the piece —
buffers, `save_progress`, hashing state — entirely unchanged.  The
hypothesis `validBlock` reflects that the call names an actual block of
the piece (`save_block` validates before the duplicate check). -/
theorem save_block_duplicate (p : Piece) (b : PBlock)
    (hv : Piece.validBlock p b = true)
    (hd : p.save_progress.getD (b.offset / 16384) false = true) :
    Piece.save_block p b = (Piece.SaveRes.duplicate_block, p) := by
  have hd2 : p.save_progress[b.offset / 16384]?.getD false = true := by
    simpa [List.getD] using hd
  simp [Piece.save_block, hv, hd2]


/-- Witness for C8 at a concrete input. -/
theorem save_block_duplicate_witness :
    Piece.validBlock dupPiece ⟨16384, [7]⟩ = true ∧
      dupPiece.save_progress.getD (16384 / 16384) false = true ∧
      Piece.save_block dupPiece ⟨16384, [7]⟩ = (Piece.SaveRes.duplicate_block, dupPiece) :=
  ⟨rfl, rfl, save_block_duplicate _ _ rfl rfl⟩

/-- Claim C7 counterexample.  On a capacity-3 cache (window capacity 1)
holding key 0 in the probationary segment and key 1 in the window,
`insert(0, 99)` finds the window full, so eviction runs first and
removes key 1 (tie on frequency 0 evicts the window victim), before the
in-place update of key 0.  Another entry is removed and `size()` drops
from 2 to 1, contradicting the claim. -/
theorem wtinylfu_insert_existing_counterexample :
    ((((Cache.mk' (V := Nat) natHash 3).insert 0 10).bind fun c => c.insert 1 20).map
        fun c => (c.contains 0, c.contains 1, c.size)) = some (true, true, 2) ∧
      (((((Cache.mk' (V := Nat) natHash 3).insert 0 10).bind fun c => c.insert 1 20).bind
          fun c => c.insert 0 99).map
            fun c => (c.contains 0, c.contains 1, c.lookup 0, c.size))
        = some (true, false, some 99, 1) :=
  ⟨rfl, rfl⟩

namespace Cache

variable {K V : Type} [DecidableEq K]

theorem find?_map_of_key_fixed (g : Page K V → Page K V)
    (hg : ∀ p, (g p).key = p.key) (k : K) (l : List (Page K V)) :
    (l.map g).find? (fun p => decide (p.key = k)) =
      (l.find? (fun p => decide (p.key = k))).map g := by
  induction l with
  | nil => rfl
  | cons x xs ih =>
    by_cases hx : x.key = k
    · simp [List.find?_cons, hg x, hx]
    · simp [List.find?_cons, hg x, hx, ih]

theorem updateData_key_fixed (k : K) (v : V) (p : Page K V) :
    ((fun q => if q.key = k then { q with data := v } else q) p).key = p.key := by
  by_cases h : p.key = k <;> simp [h]

theorem updateData_eq_map (k : K) (v : V) (l : List (Page K V)) :
    updateData k v l = l.map (fun q => if q.key = k then { q with data := v } else q) := rfl

end Cache

/-- Claim C7 amended: provided the window segment is not full at the
time of the call (so that no eviction precedes the update), inserting a
value for an already-present key replaces the stored value in place:
every page keeps its segment and recency position, no entry is added or
removed, `size()` is unchanged, the key's stored value becomes the new
one and every other key's value is untouched. -/
theorem wtinylfu_insert_existing_in_place {K V : Type} [DecidableEq K]
    (c : Cache K V) (k : K) (v : V)
    (hw : c.window.length < c.window_cap)
    (hc : c.contains k = true) :
    ∃ c', c.insert k v = some c' ∧
      c'.window.map (fun p => (p.key, p.cache_type)) =
        c.window.map (fun p => (p.key, p.cache_type)) ∧
      c'.safe.map (fun p => (p.key, p.cache_type)) =
        c.safe.map (fun p => (p.key, p.cache_type)) ∧
      c'.prob.map (fun p => (p.key, p.cache_type)) =
        c.prob.map (fun p => (p.key, p.cache_type)) ∧
      c'.size = c.size ∧
      c'.lookup k = some v ∧
      ∀ k2, k2 ≠ k → c'.lookup k2 = c.lookup k2 := by
  have hnf : ¬ c.window_cap ≤ c.window.length := Nat.not_le.mpr hw
  have hins : c.insert k v =
      some { c with window := Cache.updateData k v c.window,
                    safe := Cache.updateData k v c.safe,
                    prob := Cache.updateData k v c.prob } := by
    unfold Cache.insert
    rw [if_neg hnf]
    simp [hc]
  refine ⟨_, hins, ?_⟩
  · set g : Page K V → Page K V := fun q => if q.key = k then { q with data := v } else q with hg
    have hgk : ∀ p : Page K V, (g p).key = p.key := Cache.updateData_key_fixed k v
    have hmap : ∀ l : List (Page K V),
        (Cache.updateData k v l).map (fun p => (p.key, p.cache_type)) =
          l.map (fun p => (p.key, p.cache_type)) := by
      intro l
      rw [Cache.updateData_eq_map, List.map_map]
      apply List.map_congr_left
      intro p _
      by_cases h : p.key = k <;> simp [g, h]
    have hfind : ∀ (k2 : K) (l : List (Page K V)),
        (Cache.updateData k v l).find? (fun p => decide (p.key = k2)) =
          (l.find? (fun p => decide (p.key = k2))).map g := by
      intro k2 l
      rw [Cache.updateData_eq_map]
      exact Cache.find?_map_of_key_fixed g hgk k2 l
    refine ⟨hmap _, hmap _, hmap _, ?_, ?_, ?_⟩
    · simp [Cache.size, Cache.updateData_eq_map]
    · unfold Cache.lookup Cache.findPage
      have happ : Cache.updateData k v c.window ++ Cache.updateData k v c.safe ++
          Cache.updateData k v c.prob =
            Cache.updateData k v (c.window ++ c.safe ++ c.prob) := by
        simp [Cache.updateData_eq_map]
      rw [happ, hfind k]
      obtain ⟨p, hp⟩ := Option.isSome_iff_exists.mp hc
      unfold Cache.findPage at hp
      rw [hp]
      have hpk : p.key = k := by simpa using List.find?_some hp
      simp [hg, hpk]
    · intro k2 hk2
      unfold Cache.lookup Cache.findPage
      have happ : Cache.updateData k v c.window ++ Cache.updateData k v c.safe ++
          Cache.updateData k v c.prob =
            Cache.updateData k v (c.window ++ c.safe ++ c.prob) := by
        simp [Cache.updateData_eq_map]
      rw [happ, hfind k2]
      rcases hq : (c.window ++ c.safe ++ c.prob).find? (fun p => decide (p.key = k2)) with _ | q
      · rw [hq]
        rfl
      · rw [hq]
        have hqk : q.key = k2 := by simpa using List.find?_some hq
        simp [hg, hqk, hk2]


/-- Witness for the amended C7 at a concrete input. -/
theorem wtinylfu_insert_existing_in_place_witness :
    wit7.window.length < wit7.window_cap ∧ wit7.contains 0 = true ∧
      ∃ c', wit7.insert 0 99 = some c' ∧
        c'.window.map (fun p => (p.key, p.cache_type)) =
          wit7.window.map (fun p => (p.key, p.cache_type)) ∧
        c'.safe.map (fun p => (p.key, p.cache_type)) =
          wit7.safe.map (fun p => (p.key, p.cache_type)) ∧
        c'.prob.map (fun p => (p.key, p.cache_type)) =
          wit7.prob.map (fun p => (p.key, p.cache_type)) ∧
        c'.size = wit7.size ∧
        c'.lookup 0 = some 99 ∧
        ∀ k2, k2 ≠ 0 → c'.lookup k2 = wit7.lookup k2 :=
  ⟨by decide, rfl, wtinylfu_insert_existing_in_place wit7 0 99 (by decide) rfl⟩

namespace Cache

variable {K V : Type} [DecidableEq K]

theorem map_key_updateData (k : K) (v : V) (l : List (Page K V)) :
    (updateData k v l).map Page.key = l.map Page.key := by
  rw [updateData_eq_map, List.map_map]
  apply List.map_congr_left
  intro p _
  exact updateData_key_fixed k v p

theorem mem_keys_eraseKey {k k2 : K} (hne : k ≠ k2) (l : List (Page K V)) :
    k ∈ (eraseKey k2 l).map Page.key ↔ k ∈ l.map Page.key := by
  constructor
  · intro h
    obtain ⟨x, hx, hxk⟩ := List.mem_map.mp h
    exact List.mem_map.mpr ⟨x, List.mem_of_mem_eraseP hx, hxk⟩
  · intro h
    obtain ⟨x, hx, hxk⟩ := List.mem_map.mp h
    refine List.mem_map.mpr ⟨x, ?_, hxk⟩
    refine (List.mem_eraseP_of_neg ?_).mpr hx
    simp only [decide_eq_true_iff]
    rw [hxk]
    exact hne

theorem mem_keys_moveKeyToFront (k k2 : K) (l : List (Page K V))
    (h : k ∈ l.map Page.key) : k ∈ (moveKeyToFront k2 l).map Page.key := by
  unfold moveKeyToFront
  rcases hf : l.find? (fun p => decide (p.key = k2)) with _ | q
  · rw [hf]
    exact h
  · rw [hf]
    obtain ⟨x, hx, hxk⟩ := List.mem_map.mp h
    by_cases hk : k = k2
    · have hq : q.key = k2 := by simpa using List.find?_some hf
      exact List.mem_map.mpr ⟨q, List.mem_cons_self _ _, by rw [hq, hk]⟩
    · refine List.mem_map.mpr ⟨x, List.mem_cons_of_mem _ ?_, hxk⟩
      refine (List.mem_eraseP_of_neg ?_).mpr hx
      simp only [decide_eq_true_iff]
      rw [hxk]
      exact hk

theorem mem_keys_slru_handle_hit (scap : Nat) (safe prob : List (Page K V))
    (p : Page K V) (k : K)
    (h : k ∈ safe.map Page.key ∨ k ∈ prob.map Page.key) :
    k ∈ (slru_handle_hit scap safe prob p).1.map Page.key ∨
      k ∈ (slru_handle_hit scap safe prob p).2.map Page.key := by
  unfold slru_handle_hit
  by_cases hprob : p.cache_type = Seg.probationary
  · rw [if_pos hprob]
    set promoted : Page K V := { p with cache_type := Seg.safe } with hpromoted
    have hsafe1 : (promoted :: safe) ≠ [] := List.cons_ne_nil _ _
    have hdecomp : (promoted :: safe).dropLast ++ [(promoted :: safe).getLast hsafe1]
        = promoted :: safe := List.dropLast_append_getLast hsafe1
    have hlastD : (promoted :: safe).getLastD promoted
        = (promoted :: safe).getLast hsafe1 := by
      rw [List.getLastD_eq_getLast?, List.getLast?_eq_getLast _ hsafe1]
      rfl
    have hinsafe1 : ∀ x : Page K V, x ∈ promoted :: safe →
        x ∈ (promoted :: safe).dropLast ∨ x = (promoted :: safe).getLast hsafe1 := by
      intro x hx
      rw [← hdecomp] at hx
      rcases List.mem_append.mp hx with hx1 | hx2
      · exact Or.inl hx1
      · exact Or.inr (List.mem_singleton.mp hx2)
    by_cases hfull : scap ≤ (promoted :: safe).length
    · rw [if_pos hfull]
      -- the demoting branch
      rcases h with hs | hp2
      · obtain ⟨x, hx, hxk⟩ := List.mem_map.mp hs
        rcases hinsafe1 x (List.mem_cons_of_mem _ hx) with hx1 | hx2
        · exact Or.inl (List.mem_map.mpr ⟨x, hx1, hxk⟩)
        · refine Or.inr (List.mem_map.mpr ⟨_, List.mem_cons_self _ _, ?_⟩)
          rw [hlastD, ← hx2]
          exact hxk
      · by_cases hk : k = p.key
        · rcases hinsafe1 promoted (List.mem_cons_self _ _) with hx1 | hx2
          · exact Or.inl (List.mem_map.mpr ⟨promoted, hx1, hk.symm⟩)
          · refine Or.inr (List.mem_map.mpr ⟨_, List.mem_cons_self _ _, ?_⟩)
            rw [hlastD, ← hx2]
            exact hk.symm
        · obtain ⟨x, hx, hxk⟩ := List.mem_map.mp hp2
          refine Or.inr (List.mem_map.mpr ⟨x, List.mem_cons_of_mem _ ?_, hxk⟩)
          refine (List.mem_eraseP_of_neg ?_).mpr hx
          simp only [decide_eq_true_iff]
          rw [hxk]
          exact hk
    · rw [if_neg hfull]
      rcases h with hs | hp2
      · exact Or.inl (List.mem_map.mpr
          (by
            obtain ⟨x, hx, hxk⟩ := List.mem_map.mp hs
            exact ⟨x, List.mem_cons_of_mem _ hx, hxk⟩))
      · by_cases hk : k = p.key
        · exact Or.inl (List.mem_map.mpr ⟨promoted, List.mem_cons_self _ _, hk.symm⟩)
        · obtain ⟨x, hx, hxk⟩ := List.mem_map.mp hp2
          refine Or.inr (List.mem_map.mpr ⟨x, ?_, hxk⟩)
          refine (List.mem_eraseP_of_neg ?_).mpr hx
          simp only [decide_eq_true_iff]
          rw [hxk]
          exact hk
  · rw [if_neg hprob]
    rcases h with hs | hp2
    · exact Or.inl (mem_keys_moveKeyToFront k p.key safe hs)
    · exact Or.inr hp2

end Cache

/-- Claim C1: with the window full at `insert(k,v)` (for a fresh key
`k`), eviction runs first.  If `size() ≥ capacity()` the sketch
frequencies of the window victim `wv` (window LRU) and main victim
`mv` (probationary LRU) are compared: the victim with the lower
estimated frequency is removed from the cache (on a tie the window
victim), and on a main-victim eviction the window victim is
transferred into the main cache; if `size() < capacity()` the window
victim is instead transferred to the MRU position of the main cache's
probationary segment.  Afterwards the new entry is placed at the
window MRU position. -/
theorem wtinylfu_insert_eviction_policy {K V : Type} [DecidableEq K]
    (c : Cache K V) (k : K) (v : V) (wv : Page K V)
    (hnd : c.keysOf.Nodup)
    (hfull : c.window_cap ≤ c.window.length)
    (hwv : c.window.getLast? = some wv)
    (hk : c.contains k = false) :
    (∀ mv : Page K V, c.capacity ≤ c.size → c.prob.getLast? = some mv →
      ∃ c', c.insert k v = some c' ∧
        (c.filter.get_frequency mv.key < c.filter.get_frequency wv.key →
          c'.contains mv.key = false ∧ c'.contains wv.key = true) ∧
        (c.filter.get_frequency wv.key ≤ c.filter.get_frequency mv.key →
          c'.contains wv.key = false) ∧
        c'.window.head? = some ⟨k, Seg.window, v⟩) ∧
    (c.size < c.capacity →
      ∃ c', c.insert k v = some c' ∧
        c'.prob.head? = some { wv with cache_type := Seg.probationary } ∧
        c'.contains wv.key = true ∧
        c'.window.head? = some ⟨k, Seg.window, v⟩ ∧
        c'.size = c.size + 1) := by
  obtain ⟨wys, hwys⟩ := List.getLast?_eq_some_iff.mp hwv
  have hwdrop : c.window.dropLast = wys := by rw [hwys, List.dropLast_concat]
  have hwvmem : wv ∈ c.window := by rw [hwys]; simp
  have hknotin : k ∉ c.keysOf := (Cache.contains_false_iff c k).mp hk
  have hkA : k ∉ c.window.map Page.key := fun h =>
    hknotin ((Cache.mem_keysOf_iff c k).mpr (Or.inl h))
  have hkB : k ∉ c.safe.map Page.key := fun h =>
    hknotin ((Cache.mem_keysOf_iff c k).mpr (Or.inr (Or.inl h)))
  have hkC : k ∉ c.prob.map Page.key := fun h =>
    hknotin ((Cache.mem_keysOf_iff c k).mpr (Or.inr (Or.inr h)))
  have hnd2 : ((c.window.map Page.key) ++
      ((c.safe.map Page.key) ++ (c.prob.map Page.key))).Nodup := by
    simpa [Cache.keysOf, List.map_append, List.append_assoc] using hnd
  obtain ⟨hndA, hndBC, hdisjA⟩ := List.nodup_append.mp hnd2
  obtain ⟨hndB, hndC, hdisjBC⟩ := List.nodup_append.mp hndBC
  have hwvkeyA : wv.key ∈ c.window.map Page.key := List.mem_map.mpr ⟨wv, hwvmem, rfl⟩
  have hwvk_ne_k : wv.key ≠ k := fun h => hkA (h ▸ hwvkeyA)
  have hwv_notin_ys : wv.key ∉ wys.map Page.key := by
    have : ((wys.map Page.key) ++ [wv.key]).Nodup := by
      simpa [hwys, List.map_append] using hndA
    have h3 := (List.nodup_append.mp this).2.2
    intro hmem
    exact h3 hmem (List.mem_singleton.mpr rfl)
  have hwv_notin_B : wv.key ∉ c.safe.map Page.key := fun h =>
    hdisjA hwvkeyA (List.mem_append.mpr (Or.inl h))
  have hwv_notin_C : wv.key ∉ c.prob.map Page.key := fun h =>
    hdisjA hwvkeyA (List.mem_append.mpr (Or.inr h))
  constructor
  · intro mv hcap hmv
    obtain ⟨pys, hpys⟩ := List.getLast?_eq_some_iff.mp hmv
    have hpdrop : c.prob.dropLast = pys := by rw [hpys, List.dropLast_concat]
    have hmvmem : mv ∈ c.prob := by rw [hpys]; simp
    have hmvkeyC : mv.key ∈ c.prob.map Page.key := List.mem_map.mpr ⟨mv, hmvmem, rfl⟩
    have hmvk_ne_k : mv.key ≠ k := fun h => hkC (h ▸ hmvkeyC)
    have hmv_notin_A : mv.key ∉ c.window.map Page.key := fun h =>
      hdisjA h (List.mem_append.mpr (Or.inr hmvkeyC))
    have hmv_notin_B : mv.key ∉ c.safe.map Page.key := fun h =>
      hdisjBC h hmvkeyC
    have hmv_notin_pys : mv.key ∉ pys.map Page.key := by
      have : ((pys.map Page.key) ++ [mv.key]).Nodup := by
        simpa [hpys, List.map_append] using hndC
      have h3 := (List.nodup_append.mp this).2.2
      intro hmem
      exact h3 hmem (List.mem_singleton.mpr rfl)
    have hmvk_ne_wvk : mv.key ≠ wv.key := fun h => hmv_notin_A (h ▸ hwvkeyA)
    by_cases hcmp : c.filter.get_frequency mv.key < c.filter.get_frequency wv.key
    · have hev : c.evict =
          some { c with window := c.window.dropLast,
                        prob := { wv with cache_type := Seg.probationary } ::
                          c.prob.dropLast } := by
        unfold Cache.evict Cache.evict_from_window_or_main slru_victim
        rw [if_pos hcap]
        rw [hwv, hmv]
        simp only [if_pos hcmp]
      have hcEv : Cache.contains
          { c with window := c.window.dropLast,
                   prob := { wv with cache_type := Seg.probationary } ::
                     c.prob.dropLast } k = false := by
        apply (Cache.contains_false_iff _ _).mpr
        rw [Cache.mem_keysOf_iff]
        rintro (h1 | h2 | h3)
        · exact hkA (List.map_subset _ (List.dropLast_sublist _).subset h1)
        · exact hkB h2
        · rcases List.mem_map.mp h3 with ⟨x, hx, hxk⟩
          rcases List.mem_cons.mp hx with rfl | hx2
          · exact hwvk_ne_k hxk
          · exact hkC (List.mem_map.mpr
              ⟨x, (List.dropLast_sublist _).subset hx2, hxk⟩)
      have hins : c.insert k v =
          some { c with window := ⟨k, Seg.window, v⟩ :: c.window.dropLast,
                        prob := { wv with cache_type := Seg.probationary } ::
                          c.prob.dropLast } := by
        unfold Cache.insert
        rw [if_pos hfull, hev]
        simp only [Option.some_bind]
        rw [if_neg (by simp [hcEv])]
      refine ⟨_, hins, ?_, ?_, rfl⟩
      · intro _
        constructor
        · apply (Cache.contains_false_iff _ _).mpr
          rw [Cache.mem_keysOf_iff]
          rintro (h1 | h2 | h3)
          · rcases List.mem_map.mp h1 with ⟨x, hx, hxk⟩
            rcases List.mem_cons.mp hx with rfl | hx2
            · exact hmvk_ne_k hxk.symm
            · refine hmv_notin_A (List.mem_map.mpr
                ⟨x, (List.dropLast_sublist _).subset hx2, hxk⟩)
          · exact hmv_notin_B h2
          · rcases List.mem_map.mp h3 with ⟨x, hx, hxk⟩
            rcases List.mem_cons.mp hx with rfl | hx2
            · exact hmvk_ne_wvk hxk.symm
            · rw [hpdrop] at hx2
              exact hmv_notin_pys (List.mem_map.mpr ⟨x, hx2, hxk⟩)
        · apply (Cache.contains_iff_mem_keysOf _ _).mpr
          rw [Cache.mem_keysOf_iff]
          exact Or.inr (Or.inr (List.mem_map.mpr ⟨_, List.mem_cons_self _ _, rfl⟩))
      · intro hle
        exact absurd (Nat.lt_of_lt_of_le hcmp hle) (Nat.lt_irrefl _)
    · have hev : c.evict = some { c with window := c.window.dropLast } := by
        unfold Cache.evict Cache.evict_from_window_or_main slru_victim
        rw [if_pos hcap]
        rw [hwv, hmv]
        simp only [if_neg hcmp]
      have hcEv : Cache.contains { c with window := c.window.dropLast } k = false := by
        apply (Cache.contains_false_iff _ _).mpr
        rw [Cache.mem_keysOf_iff]
        rintro (h1 | h2 | h3)
        · exact hkA (List.map_subset _ (List.dropLast_sublist _).subset h1)
        · exact hkB h2
        · exact hkC h3
      have hins : c.insert k v =
          some { c with window := ⟨k, Seg.window, v⟩ :: c.window.dropLast } := by
        unfold Cache.insert
        rw [if_pos hfull, hev]
        simp only [Option.some_bind]
        rw [if_neg (by simp [hcEv])]
      refine ⟨_, hins, ?_, ?_, rfl⟩
      · intro hlt
        exact absurd hlt hcmp
      · intro _
        apply (Cache.contains_false_iff _ _).mpr
        rw [Cache.mem_keysOf_iff]
        rintro (h1 | h2 | h3)
        · rcases List.mem_map.mp h1 with ⟨x, hx, hxk⟩
          rcases List.mem_cons.mp hx with rfl | hx2
          · exact hwvk_ne_k hxk.symm
          · rw [hwdrop] at hx2
            exact hwv_notin_ys (List.mem_map.mpr ⟨x, hx2, hxk⟩)
        · exact hwv_notin_B h2
        · exact hwv_notin_C h3
  · intro hlt
    have hev : c.evict =
        some { c with window := c.window.dropLast,
                      prob := { wv with cache_type := Seg.probationary } :: c.prob } := by
      unfold Cache.evict
      rw [if_neg (by simpa using Nat.not_le.mpr hlt)]
      rw [hwv]
    have hcEv : Cache.contains
        { c with window := c.window.dropLast,
                 prob := { wv with cache_type := Seg.probationary } :: c.prob } k
          = false := by
      apply (Cache.contains_false_iff _ _).mpr
      rw [Cache.mem_keysOf_iff]
      rintro (h1 | h2 | h3)
      · exact hkA (List.map_subset _ (List.dropLast_sublist _).subset h1)
      · exact hkB h2
      · rcases List.mem_map.mp h3 with ⟨x, hx, hxk⟩
        rcases List.mem_cons.mp hx with rfl | hx2
        · exact hwvk_ne_k hxk
        · exact hkC (List.mem_map.mpr ⟨x, hx2, hxk⟩)
    have hins : c.insert k v =
        some { c with window := ⟨k, Seg.window, v⟩ :: c.window.dropLast,
                      prob := { wv with cache_type := Seg.probationary } :: c.prob } := by
      unfold Cache.insert
      rw [if_pos hfull, hev]
      simp only [Option.some_bind]
      rw [if_neg (by simp [hcEv])]
    refine ⟨_, hins, rfl, ?_, rfl, ?_⟩
    · apply (Cache.contains_iff_mem_keysOf _ _).mpr
      rw [Cache.mem_keysOf_iff]
      exact Or.inr (Or.inr (List.mem_map.mpr ⟨_, List.mem_cons_self _ _, rfl⟩))
    · show (⟨k, Seg.window, v⟩ :: c.window.dropLast).length +
        (c.safe.length + ({ wv with cache_type := Seg.probationary } :: c.prob).length)
          = c.size + 1
      have hwlen : c.window.length = wys.length + 1 := by
        rw [hwys]
        simp
      unfold Cache.size
      rw [hwdrop, hwlen]
      simp [hwys]
      omega


/-- Witness for C1 at a concrete input (the full-cache branch with the
window victim's frequency strictly higher, so the main victim is
evicted). -/
theorem wtinylfu_insert_eviction_policy_witness :
    wit1.keysOf.Nodup ∧ wit1.window_cap ≤ wit1.window.length ∧
      wit1.window.getLast? = some ⟨0, Seg.window, 10⟩ ∧ wit1.contains 7 = false ∧
      wit1.capacity ≤ wit1.size ∧ wit1.prob.getLast? = some ⟨1, Seg.probationary, 11⟩ ∧
      ∃ c', wit1.insert 7 77 = some c' ∧
        (wit1.filter.get_frequency 1 < wit1.filter.get_frequency 0 →
          c'.contains 1 = false ∧ c'.contains 0 = true) ∧
        (wit1.filter.get_frequency 0 ≤ wit1.filter.get_frequency 1 →
          c'.contains 0 = false) ∧
        c'.window.head? = some ⟨7, Seg.window, 77⟩ := by
  refine ⟨by decide, by decide, rfl, rfl, by decide, rfl, ?_⟩
  exact (wtinylfu_insert_eviction_policy wit1 7 77 ⟨0, Seg.window, 10⟩
    (by decide) (by decide) rfl (by decide)).1 ⟨1, Seg.probationary, 11⟩ (by decide) rfl

/-- Claim C6 counterexample.  `slru::handle_hit` demotes whenever the
safe segment `is_full()` — size greater than **or equal to** capacity —
after the promotion, not only when it is strictly over capacity.  On a
capacity-3 cache (safe capacity 1, safe segment empty) a hit on key 0
in the probationary segment promotes it to the safe segment, which is
then exactly at capacity (1, not over), yet the demotion fires and
bounces the freshly promoted page straight back to the probationary
segment: afterwards the safe segment is empty and key 0 is
probationary, where the claim predicts key 0 at the safe MRU
position. -/
theorem slru_hit_demotion_counterexample :
    ((((Cache.mk' (V := Nat) natHash 3).insert 0 10).bind fun c => c.insert 1 20).map
        fun c => (c.safe_cap, c.safe.length, c.prob.map Page.key,
                  (c.get 0).2.safe.map Page.key,
                  (c.get 0).2.prob.map fun p => (p.key, p.cache_type)))
      = some (1, 0, [0], [], [(0, Seg.probationary)]) := rfl

/-- Claim C6 amended: on a hit in the probationary segment the page is
promoted to the MRU position of the safe segment, and if the safe
segment is then full — size at least capacity, not only strictly over
it — the LRU page of the (post-promotion) safe segment is demoted to
the probationary MRU position; on a hit in the safe segment the page
moves to the safe MRU position; the eviction victim is always the LRU
page of the probationary segment. -/
theorem slru_hit_and_victim {K V : Type} [DecidableEq K]
    (scap : Nat) (safe prob : List (Page K V)) (p : Page K V) :
    (p.cache_type = Seg.probationary →
      (safe.length + 1 < scap →
        slru_handle_hit scap safe prob p =
          ({ p with cache_type := Seg.safe } :: safe, Cache.eraseKey p.key prob)) ∧
      (scap ≤ safe.length + 1 →
        slru_handle_hit scap safe prob p =
          (({ p with cache_type := Seg.safe } :: safe).dropLast,
            { safe.getLastD { p with cache_type := Seg.safe } with
                cache_type := Seg.probationary } :: Cache.eraseKey p.key prob))) ∧
    (p.cache_type = Seg.safe →
      slru_handle_hit scap safe prob p = (Cache.moveKeyToFront p.key safe, prob) ∧
      (safe.find? (fun q => decide (q.key = p.key)) = some p →
        (slru_handle_hit scap safe prob p).1.head? = some p)) ∧
    slru_victim prob = prob.getLast? := by
  refine ⟨?_, ?_, rfl⟩
  · intro hprob
    constructor
    · intro hlt
      unfold slru_handle_hit
      rw [if_pos hprob, if_neg (by simpa using Nat.not_le.mpr hlt)]
    · intro hge
      unfold slru_handle_hit
      rw [if_pos hprob, if_pos (by simpa using hge)]
      rw [List.getLastD_cons]
  · intro hsafe
    have hns : p.cache_type ≠ Seg.probationary := by rw [hsafe]; intro h; cases h
    constructor
    · unfold slru_handle_hit
      rw [if_neg hns]
    · intro hfind
      unfold slru_handle_hit
      rw [if_neg hns]
      unfold Cache.moveKeyToFront
      rw [hfind]
      rfl

/-- Claim C4: immediately after a completing `insert(k,v)` the cache
contains `k`; and containment of a key is never destroyed by `get`
(any probe) or by `erase` of a different key — only a subsequent
`insert`'s eviction or an explicit `erase(k)` can remove it. -/
theorem wtinylfu_contains_after_insert {K V : Type} [DecidableEq K]
    (c : Cache K V) (k k2 : K) (v : V) :
    (∀ c', c.insert k v = some c' → c'.contains k = true) ∧
    (c.contains k = true → ((c.get k2).2).contains k = true) ∧
    (k2 ≠ k → (c.erase k2).contains k = c.contains k) := by
  refine ⟨?_, ?_, ?_⟩
  · intro c' h
    unfold Cache.insert at h
    rcases ho : (if c.window_cap ≤ c.window.length then c.evict else some c) with _ | c1
    · rw [ho] at h
      simp at h
    · rw [ho] at h
      simp only [Option.some_bind] at h
      by_cases hk1 : c1.contains k = true
      · rw [if_pos hk1, Option.some.injEq] at h
        subst h
        rw [Cache.contains_iff_mem_keysOf, Cache.mem_keysOf_iff]
        rw [Cache.contains_iff_mem_keysOf, Cache.mem_keysOf_iff] at hk1
        simpa only [Cache.map_key_updateData] using hk1
      · rw [if_neg hk1, Option.some.injEq] at h
        subst h
        rw [Cache.contains_iff_mem_keysOf, Cache.mem_keysOf_iff]
        exact Or.inl (List.mem_map.mpr ⟨⟨k, Seg.window, v⟩, List.mem_cons_self _ _, rfl⟩)
  · intro hc
    rw [Cache.contains_iff_mem_keysOf, Cache.mem_keysOf_iff] at hc
    simp only [Cache.get]
    rw [Cache.findPage_set_filter]
    split
    · rw [Cache.contains_iff_mem_keysOf, Cache.mem_keysOf_iff]
      exact hc
    · next p _ =>
      split
      · rw [Cache.contains_iff_mem_keysOf, Cache.mem_keysOf_iff]
        rcases hc with h1 | h2 | h3
        · exact Or.inl (Cache.mem_keys_moveKeyToFront k k2 c.window h1)
        · exact Or.inr (Or.inl h2)
        · exact Or.inr (Or.inr h3)
      · rw [Cache.contains_iff_mem_keysOf, Cache.mem_keysOf_iff]
        rcases hc with h1 | h2 | h3
        · exact Or.inl h1
        · rcases Cache.mem_keys_slru_handle_hit c.safe_cap c.safe c.prob p k (Or.inl h2) with
            hs | hp2
          · exact Or.inr (Or.inl hs)
          · exact Or.inr (Or.inr hp2)
        · rcases Cache.mem_keys_slru_handle_hit c.safe_cap c.safe c.prob p k (Or.inr h3) with
            hs | hp2
          · exact Or.inr (Or.inl hs)
          · exact Or.inr (Or.inr hp2)
  · intro hne
    unfold Cache.erase
    split
    · rfl
    · split
      · rw [Bool.eq_iff_iff, Cache.contains_iff_mem_keysOf, Cache.contains_iff_mem_keysOf,
          Cache.mem_keysOf_iff, Cache.mem_keysOf_iff,
          Cache.mem_keys_eraseKey (Ne.symm hne)]
      · split
        · rw [Bool.eq_iff_iff, Cache.contains_iff_mem_keysOf, Cache.contains_iff_mem_keysOf,
            Cache.mem_keysOf_iff, Cache.mem_keysOf_iff,
            Cache.mem_keys_eraseKey (Ne.symm hne)]
        · rw [Bool.eq_iff_iff, Cache.contains_iff_mem_keysOf, Cache.contains_iff_mem_keysOf,
            Cache.mem_keysOf_iff, Cache.mem_keysOf_iff,
            Cache.mem_keys_eraseKey (Ne.symm hne)]

/-- Witness for C4 at a concrete input: insert key 5 with value 50 into
a fresh capacity-4 cache, then exercise the get- and erase-preservation
parts at keys 9 and 5. -/
theorem wtinylfu_contains_after_insert_witness :
    ((Cache.mk' (V := Nat) natHash 4).insert 5 50 = some
        { Cache.mk' (V := Nat) natHash 4 with window := [⟨5, Seg.window, 50⟩] } →
      ({ Cache.mk' (V := Nat) natHash 4 with
          window := [⟨5, Seg.window, 50⟩] } : Cache Nat Nat).contains 5 = true) ∧
      (((Cache.mk' (V := Nat) natHash 4).contains 5 = true →
        (((Cache.mk' (V := Nat) natHash 4).get 9).2).contains 5 = true) ∧
      ((9 : Nat) ≠ 5 →
        ((Cache.mk' (V := Nat) natHash 4).erase 9).contains 5 =
          (Cache.mk' (V := Nat) natHash 4).contains 5)) ∧
      (((Cache.mk' (V := Nat) natHash 4).insert 5 50 = some
          { Cache.mk' (V := Nat) natHash 4 with window := [⟨5, Seg.window, 50⟩] }) ∧
        ({ Cache.mk' (V := Nat) natHash 4 with
            window := [⟨5, Seg.window, 50⟩] } : Cache Nat Nat).contains 5 = true) := by
  have h := wtinylfu_contains_after_insert (Cache.mk' (V := Nat) natHash 4) 5 9 50
  exact ⟨h.1 _, h.2, rfl, h.1 _ rfl⟩

namespace Piece

theorem totalLen_append (l1 l2 : List PBlock) :
    totalLen (l1 ++ l2) = totalLen l1 + totalLen l2 := by
  unfold totalLen
  rw [List.map_append, List.sum_append]

theorem totalLen_cons (x : PBlock) (xs : List PBlock) :
    totalLen (x :: xs) = x.data.length + totalLen xs := by
  unfold totalLen
  simp

theorem chainFromB_append (o : Nat) (l1 l2 : List PBlock) :
    chainFromB o (l1 ++ l2) =
      (chainFromB o l1 && chainFromB (o + totalLen l1) l2) := by
  induction l1 generalizing o with
  | nil =>
    show chainFromB o l2 = (true && chainFromB (o + totalLen []) l2)
    rw [Bool.true_and]
    congr 1
  | cons x xs ih =>
    show (decide (x.offset = o) && chainFromB (o + x.data.length) (xs ++ l2)) = _
    rw [ih]
    show _ = ((decide (x.offset = o) && chainFromB (o + x.data.length) xs) &&
      chainFromB (o + totalLen (x :: xs)) l2)
    rw [totalLen_cons, Bool.and_assoc, ← Nat.add_assoc]

theorem chainFromB_hashablePart :
    ∀ (l : List PBlock) (o : Nat), chainFromB o (hashablePart o l) = true := by
  intro l
  induction l with
  | nil => intro o; rfl
  | cons x xs ih =>
    intro o
    unfold hashablePart
    by_cases h : x.offset = o
    · rw [if_pos h]
      show (decide (x.offset = o) &&
        chainFromB (o + x.data.length) (hashablePart (o + x.data.length) xs)) = true
      rw [ih, decide_eq_true h, Bool.true_and]
    · rw [if_neg h]
      rfl

theorem hashablePart_subset :
    ∀ (l : List PBlock) (o : Nat) (x : PBlock), x ∈ hashablePart o l → x ∈ l := by
  intro l
  induction l with
  | nil => intro o x hx; exact absurd hx (List.not_mem_nil x)
  | cons y ys ih =>
    intro o x hx
    unfold hashablePart at hx
    by_cases h : y.offset = o
    · rw [if_pos h] at hx
      rcases List.mem_cons.mp hx with rfl | hx2
      · exact List.mem_cons_self _ _
      · exact List.mem_cons_of_mem _ (ih _ x hx2)
    · rw [if_neg h] at hx
      exact absurd hx (List.not_mem_nil x)

theorem mem_insertOrdered (b x : PBlock) :
    ∀ l : List PBlock, x ∈ insertOrdered b l ↔ x = b ∨ x ∈ l := by
  intro l
  induction l with
  | nil => simp [insertOrdered]
  | cons y ys ih =>
    unfold insertOrdered
    by_cases h : b.offset < y.offset
    · rw [if_pos h]
      simp [List.mem_cons]
    · rw [if_neg h]
      simp only [List.mem_cons, ih]
      tauto

theorem foldl_insertOrdered_subset :
    ∀ (l acc : List PBlock) (x : PBlock),
      x ∈ l.foldl (fun a b => insertOrdered b a) acc → x ∈ acc ∨ x ∈ l := by
  intro l
  induction l with
  | nil => intro acc x hx; exact Or.inl hx
  | cons y ys ih =>
    intro acc x hx
    rcases ih (insertOrdered y acc) x hx with h1 | h2
    · rcases (mem_insertOrdered y x acc).mp h1 with rfl | h3
      · exact Or.inr (List.mem_cons_self _ _)
      · exact Or.inl h3
    · exact Or.inr (List.mem_cons_of_mem _ h2)

theorem sortByOffset_subset (l : List PBlock) (x : PBlock)
    (hx : x ∈ sortByOffset l) : x ∈ l := by
  rcases foldl_insertOrdered_subset l [] x hx with h | h
  · exact absurd h (List.not_mem_nil x)
  · exact h

theorem step_preserves_inv {L : Nat} {p q : Piece} {e : Ev}
    (hinv : Inv p) (h : step L p e = some q) : Inv q := by
  obtain ⟨hchain, hoff, hjob, hbuf, hwork, hdisk, hfed⟩ := hinv
  cases e with
  | recv b =>
    simp only [step, Option.some.injEq] at h
    subst h
    unfold save_block
    split
    · split
      · exact ⟨hchain, hoff, hjob, hbuf, hwork, hdisk, hfed⟩
      · refine ⟨hchain, hoff, hjob, ?_, ?_, ?_, ?_⟩
        · intro x hx
          rcases (mem_insertOrdered b x p.buffer).mp hx with rfl | hx2
          · exact List.mem_append_right _ (List.mem_singleton.mpr rfl)
          · exact List.mem_append_left _ (hbuf x hx2)
        · exact fun x hx => List.mem_append_left _ (hwork x hx)
        · exact fun x hx => List.mem_append_left _ (hdisk x hx)
        · exact fun x hx => List.mem_append_left _ (hfed x hx)
    · exact ⟨hchain, hoff, hjob, hbuf, hwork, hdisk, hfed⟩
  | start_hash =>
    simp only [step] at h
    split at h
    · split at h
      · rw [Option.some.injEq] at h
        subst h
        refine ⟨hchain, hoff, ?_, ?_, ?_, hdisk, hfed⟩
        · intro _
          exact chainFromB_hashablePart p.buffer p.unhashed_offset
        · exact fun x hx => hbuf x (List.drop_subset _ _ hx)
        · exact fun x hx => hbuf x (hashablePart_subset _ _ x hx)
      · exact absurd h (by simp)
    · exact absurd h (by simp)
  | finish_hash =>
    simp only [step] at h
    rcases hj : p.job with _ | j
    · rw [hj] at h
      exact absurd h (by simp)
    · rw [hj] at h
      cases j with
      | hash =>
        rw [Option.some.injEq] at h
        subst h
        have hwchain := hjob hj
        refine ⟨?_, ?_, ?_, hbuf, ?_, ?_, ?_⟩
        · rw [chainFromB_append, hchain, Bool.true_and, Nat.zero_add, ← hoff]
          exact hwchain
        · rw [totalLen_append, hoff]
        · intro hcon
          exact absurd hcon (by simp)
        · exact fun x hx => absurd hx (List.not_mem_nil x)
        · intro x hx
          rcases List.mem_append.mp hx with h1 | h2
          · exact hdisk x h1
          · exact hwork x h2
        · intro x hx
          rcases List.mem_append.mp hx with h1 | h2
          · exact hfed x h1
          · exact hwork x h2
      | flush => exact absurd h (by simp)
      | complete => exact absurd h (by simp)
  | start_flush =>
    simp only [step] at h
    split at h
    · rw [Option.some.injEq] at h
      subst h
      refine ⟨hchain, hoff, ?_, ?_, ?_, hdisk, hfed⟩
      · intro hcon
        exact absurd hcon (by simp)
      · exact fun x hx => absurd hx (List.not_mem_nil x)
      · intro x hx
        rcases List.mem_append.mp hx with h1 | h2
        · exact hwork x h1
        · exact hbuf x h2
    · exact absurd h (by simp)
  | finish_flush =>
    simp only [step] at h
    rcases hj : p.job with _ | j
    · rw [hj] at h
      exact absurd h (by simp)
    · rw [hj] at h
      cases j with
      | hash => exact absurd h (by simp)
      | flush =>
        rw [Option.some.injEq] at h
        subst h
        refine ⟨?_, ?_, ?_, hbuf, ?_, ?_, ?_⟩
        · rw [chainFromB_append, hchain, Bool.true_and, Nat.zero_add, ← hoff]
          exact chainFromB_hashablePart p.work_buffer p.unhashed_offset
        · rw [totalLen_append, hoff]
        · intro hcon
          exact absurd hcon (by simp)
        · exact fun x hx => absurd hx (List.not_mem_nil x)
        · intro x hx
          rcases List.mem_append.mp hx with h1 | h2
          · exact hdisk x h1
          · exact hwork x h2
        · intro x hx
          rcases List.mem_append.mp hx with h1 | h2
          · exact hfed x h1
          · exact hwork x (hashablePart_subset _ _ x h2)
      | complete => exact absurd h (by simp)
  | start_complete =>
    simp only [step] at h
    split at h
    · rw [Option.some.injEq] at h
      subst h
      refine ⟨hchain, hoff, ?_, ?_, ?_, hdisk, hfed⟩
      · intro hcon
        exact absurd hcon (by simp)
      · exact fun x hx => absurd hx (List.not_mem_nil x)
      · intro x hx
        rcases List.mem_append.mp hx with h1 | h2
        · exact hwork x h1
        · exact hbuf x h2
    · exact absurd h (by simp)
  | finish_complete =>
    simp only [step] at h
    rcases hj : p.job with _ | j
    · rw [hj] at h
      exact absurd h (by simp)
    · rw [hj] at h
      cases j with
      | hash => exact absurd h (by simp)
      | flush => exact absurd h (by simp)
      | complete =>
        split at h
        · split at h
          · next hcond =>
            rw [Option.some.injEq] at h
            subst h
            have hrem : ∀ x ∈ remaining p, x ∈ p.received := by
              intro x hx
              have hx2 := sortByOffset_subset _ x hx
              rcases List.mem_append.mp hx2 with h1 | h2
              · exact hwork x h1
              · exact hdisk x (List.mem_of_mem_filter h2)
            refine ⟨?_, ?_, ?_, hbuf, ?_, ?_, ?_⟩
            · rw [chainFromB_append, hchain, Bool.true_and, Nat.zero_add, ← hoff]
              exact hcond
            · rw [totalLen_append, hoff]
            · intro hcon
              exact absurd hcon (by simp)
            · exact fun x hx => absurd hx (List.not_mem_nil x)
            · intro x hx
              rcases List.mem_append.mp hx with h1 | h2
              · exact hdisk x h1
              · exact hwork x h2
            · intro x hx
              rcases List.mem_append.mp hx with h1 | h2
              · exact hfed x h1
              · exact hrem x h2
          · exact absurd h (by simp)
        · next hfalse => exact absurd rfl hfalse

theorem step_mono {L : Nat} {p q : Piece} {e : Ev}
    (h : step L p e = some q) : p.unhashed_offset ≤ q.unhashed_offset := by
  cases e with
  | recv b =>
    simp only [step, Option.some.injEq] at h
    subst h
    unfold save_block
    split
    · split
      · exact Nat.le_refl _
      · exact Nat.le_refl _
    · exact Nat.le_refl _
  | start_hash =>
    simp only [step] at h
    split at h
    · split at h
      · rw [Option.some.injEq] at h
        subst h
        exact Nat.le_refl _
      · exact absurd h (by simp)
    · exact absurd h (by simp)
  | finish_hash =>
    simp only [step] at h
    rcases hj : p.job with _ | j
    · rw [hj] at h
      exact absurd h (by simp)
    · rw [hj] at h
      cases j with
      | hash =>
        rw [Option.some.injEq] at h
        subst h
        exact Nat.le_add_right _ _
      | flush => exact absurd h (by simp)
      | complete => exact absurd h (by simp)
  | start_flush =>
    simp only [step] at h
    split at h
    · rw [Option.some.injEq] at h
      subst h
      exact Nat.le_refl _
    · exact absurd h (by simp)
  | finish_flush =>
    simp only [step] at h
    rcases hj : p.job with _ | j
    · rw [hj] at h
      exact absurd h (by simp)
    · rw [hj] at h
      cases j with
      | hash => exact absurd h (by simp)
      | flush =>
        rw [Option.some.injEq] at h
        subst h
        exact Nat.le_add_right _ _
      | complete => exact absurd h (by simp)
  | start_complete =>
    simp only [step] at h
    split at h
    · rw [Option.some.injEq] at h
      subst h
      exact Nat.le_refl _
    · exact absurd h (by simp)
  | finish_complete =>
    simp only [step] at h
    rcases hj : p.job with _ | j
    · rw [hj] at h
      exact absurd h (by simp)
    · rw [hj] at h
      cases j with
      | hash => exact absurd h (by simp)
      | flush => exact absurd h (by simp)
      | complete =>
        split at h
        · split at h
          · rw [Option.some.injEq] at h
            subst h
            exact Nat.le_add_right _ _
          · exact absurd h (by simp)
        · next hfalse => exact absurd rfl hfalse

theorem run_preserves_inv {L : Nat} :
    ∀ (evs : List Ev) (p q : Piece), Inv p → run L p evs = some q → Inv q := by
  intro evs
  induction evs with
  | nil =>
    intro p q hp h
    rw [run, Option.some.injEq] at h
    subst h
    exact hp
  | cons e es ih =>
    intro p q hp h
    rw [run] at h
    rcases hs : step L p e with _ | p1
    · rw [hs] at h
      exact absurd h (by simp)
    · rw [hs] at h
      rw [Option.some_bind] at h
      exact ih p1 q (step_preserves_inv hp hs) h

theorem init_inv (len : Nat) : Inv (init len) := by
  refine ⟨rfl, rfl, fun _ => rfl, ?_, ?_, ?_, ?_⟩ <;>
    exact fun b hb => absurd hb (List.not_mem_nil b)

end Piece

/-- Claim C3: for every trace of the partial-piece pipeline (receiving
blocks, dispatching and completing hash, flush and piece-completion
jobs), the blocks fed to the piece's `sha1_hasher` are exactly received
block data, contiguous in strictly ascending offset order starting at
offset 0; `unhashed_offset` always equals the total number of bytes fed
so far, and every single step leaves it unchanged or larger (monotone
non-decreasing). -/
theorem piece_hash_order_invariant (L len : Nat) (evs : List Piece.Ev) (p : Piece)
    (h : Piece.run L (Piece.init len) evs = some p) :
    (Piece.chainFromB 0 p.fed = true ∧
      p.unhashed_offset = Piece.totalLen p.fed ∧
      ∀ b ∈ p.fed, b ∈ p.received) ∧
    ∀ (q : Piece) (e : Piece.Ev) (q2 : Piece),
      Piece.step L q e = some q2 → q.unhashed_offset ≤ q2.unhashed_offset := by
  have hinv := Piece.run_preserves_inv evs (Piece.init len) p (Piece.init_inv len) h
  obtain ⟨hchain, hoff, _, _, _, _, hfed⟩ := hinv
  exact ⟨⟨hchain, hoff, hfed⟩, fun q e q2 hs => Piece.step_mono hs⟩

/-- Witness for C3 at a concrete input: a 2-byte piece receives its
single block at offset 0, which is then hashed and saved
(`write_cache_line_size` 1). -/
theorem piece_hash_order_invariant_witness :
    (Piece.chainFromB 0 witPiece.fed = true ∧
      witPiece.unhashed_offset = Piece.totalLen witPiece.fed ∧
      ∀ b ∈ witPiece.fed, b ∈ witPiece.received) ∧
    ∀ (q : Piece) (e : Piece.Ev) (q2 : Piece),
      Piece.step 1 q e = some q2 → q.unhashed_offset ≤ q2.unhashed_offset :=
  piece_hash_order_invariant 1 2
    [Piece.Ev.recv ⟨0, [7, 8]⟩, Piece.Ev.start_hash, Piece.Ev.finish_hash] witPiece rfl

/-- Witness for the amended C6 at a concrete input: safe capacity 1,
empty safe segment, a probationary page with key 0; the hit promotes
and immediately demotes the page. -/
theorem slru_hit_and_victim_witness :
    (Page.mk 0 Seg.probationary 10).cache_type = Seg.probationary ∧
      (1 : Nat) ≤ ([] : List (Page Nat Nat)).length + 1 ∧
      slru_handle_hit 1 ([] : List (Page Nat Nat)) [⟨0, Seg.probationary, 10⟩]
          ⟨0, Seg.probationary, 10⟩
        = (([⟨0, Seg.safe, 10⟩] : List (Page Nat Nat)).dropLast,
            [⟨0, Seg.probationary, 10⟩]) := by
  refine ⟨rfl, by norm_num, ?_⟩
  have h := ((slru_hit_and_victim (K := Nat) (V := Nat) 1 []
      [⟨0, Seg.probationary, 10⟩] ⟨0, Seg.probationary, 10⟩).1 rfl).2 (by norm_num)
  simpa using h

end Tide
